import Mathlib

/-!
Shallow embedding of the pitch-to-note pipeline of this repository
(`music/test_crepe.py` and `music/monitoring.py`): the note quantizers,
the stable-note stream loop, the batch event builder with ghost-note
filtering and legato correction, the zero-crossing pitch estimator with
its rolling median buffer, the debounced UDP broadcaster, and the
confidence mask.

Conventions used throughout:
* Python floats are modelled as real numbers (`ℝ`) wherever the source
  computes with `log2`, and as rationals (`ℚ`) in the purely arithmetic
  zero-crossing estimator, so that concrete runs there are decidable.
* A possibly-NaN frequency value (`np.nan` masking) is modelled as
  `Option ℝ`, with `none` standing for NaN; `not np.isfinite(f)` is the
  `none` case.
* Python `round` rounds half to even, Mathlib's `round` rounds half up;
  they agree away from exact half-integer ties, and `69 + 12*log2(f/440)`
  is never a half-integer for a rational `f > 0` (that would force
  `f/440` to be an irrational power of two), so every claim - all are
  stated at rational frequencies - is unaffected by the choice.
* Python `%` on integers with a positive modulus is `Int.emod` (the `%`
  of Lean's `Int`), and Python `//` with a positive divisor is floor
  division, `Int.ediv`.
-/

namespace Music

/-- `NOTE_NAMES` from `test_crepe.py` (the identical list `notes` appears
in `AudioMonitor.pitch_to_note` in `monitoring.py`). -/
def NOTE_NAMES : List String :=
  ["C", "C#", "D", "D#", "E", "F"] ++ ["F#", "G", "G#", "A", "A#", "B"]

/-- `midi = round(69 + 12 * math.log2(freq_hz / 440.0))` from
`hz_to_note` in `test_crepe.py`. -/
noncomputable def hz_midi (freq_hz : ℝ) : ℤ :=
  round ((69 : ℝ) + 12 * Real.logb 2 (freq_hz / 440))

/-- `hz_to_note` from `test_crepe.py`: `None` when `freq_hz <= 0`,
otherwise the string `NOTE_NAMES[midi % 12]` followed by the octave
`midi // 12 - 1`. -/
noncomputable def hz_to_note (freq_hz : ℝ) : Option String :=
  if freq_hz ≤ 0 then none
  else some (NOTE_NAMES.getD ((hz_midi freq_hz) % 12).toNat "" ++
             toString ((hz_midi freq_hz).ediv 12 - 1))

/-- `AudioMonitor.pitch_to_note` from `monitoring.py`: `"N/A"` for
`frequency <= 0`; otherwise with `half_steps = 12 * np.log2(f / 440)` it
returns `notes[int(round(half_steps + 9)) % 12]` followed by
`int(4 + (half_steps + 9) // 12)` (note: `//` here is *float* floor
division, applied before any rounding). -/
noncomputable def pitch_to_note (frequency : ℝ) : String :=
  if frequency ≤ 0 then "N/A"
  else
    NOTE_NAMES.getD ((round (12 * Real.logb 2 (frequency / 440) + 9) : ℤ) % 12).toNat "" ++
      toString ((4 : ℤ) + ⌊(12 * Real.logb 2 (frequency / 440) + 9) / 12⌋)

/-! ### Bounding `Real.logb 2` at rational points by integer-power checks -/

lemma logb2_le_of_pow {x : ℝ} {p q : ℕ} (hq : 0 < q) (hx : 0 < x)
    (h : x ^ q ≤ 2 ^ p) : Real.logb 2 x ≤ (p : ℝ) / q := by
  have h2 : (0 : ℝ) ≤ 2 := by norm_num
  have hrq : ((2 : ℝ) ^ ((p : ℝ) / q)) ^ q = 2 ^ p := by
    rw [← Real.rpow_natCast ((2 : ℝ) ^ ((p : ℝ) / q)) q, ← Real.rpow_mul h2,
      div_mul_cancel₀, Real.rpow_natCast]
    exact_mod_cast hq.ne'
  rw [Real.logb_le_iff_le_rpow one_lt_two hx]
  refine le_of_pow_le_pow_left₀ hq.ne' (Real.rpow_nonneg h2 _) ?_
  rw [hrq]; exact h

lemma logb2_lt_of_pow {x : ℝ} {p q : ℕ} (hq : 0 < q) (hx : 0 < x)
    (h : x ^ q < 2 ^ p) : Real.logb 2 x < (p : ℝ) / q := by
  have h2 : (0 : ℝ) ≤ 2 := by norm_num
  have hrq : ((2 : ℝ) ^ ((p : ℝ) / q)) ^ q = 2 ^ p := by
    rw [← Real.rpow_natCast ((2 : ℝ) ^ ((p : ℝ) / q)) q, ← Real.rpow_mul h2,
      div_mul_cancel₀, Real.rpow_natCast]
    exact_mod_cast hq.ne'
  rw [Real.logb_lt_iff_lt_rpow one_lt_two hx]
  refine lt_of_pow_lt_pow_left₀ q (Real.rpow_nonneg h2 _) ?_
  rw [hrq]; exact h

lemma le_logb2_of_pow {x : ℝ} {p q : ℕ} (hq : 0 < q) (hx : 0 < x)
    (h : (2 : ℝ) ^ p ≤ x ^ q) : (p : ℝ) / q ≤ Real.logb 2 x := by
  have h2 : (0 : ℝ) ≤ 2 := by norm_num
  have hrq : ((2 : ℝ) ^ ((p : ℝ) / q)) ^ q = 2 ^ p := by
    rw [← Real.rpow_natCast ((2 : ℝ) ^ ((p : ℝ) / q)) q, ← Real.rpow_mul h2,
      div_mul_cancel₀, Real.rpow_natCast]
    exact_mod_cast hq.ne'
  rw [Real.le_logb_iff_rpow_le one_lt_two hx]
  refine le_of_pow_le_pow_left₀ hq.ne' hx.le ?_
  rw [hrq]; exact h

lemma lt_logb2_of_pow {x : ℝ} {p q : ℕ} (hq : 0 < q) (hx : 0 < x)
    (h : (2 : ℝ) ^ p < x ^ q) : (p : ℝ) / q < Real.logb 2 x := by
  have h2 : (0 : ℝ) ≤ 2 := by norm_num
  have hrq : ((2 : ℝ) ^ ((p : ℝ) / q)) ^ q = 2 ^ p := by
    rw [← Real.rpow_natCast ((2 : ℝ) ^ ((p : ℝ) / q)) q, ← Real.rpow_mul h2,
      div_mul_cancel₀, Real.rpow_natCast]
    exact_mod_cast hq.ne'
  rw [Real.lt_logb_iff_rpow_lt one_lt_two hx]
  refine lt_of_pow_lt_pow_left₀ q hx.le ?_
  rw [hrq]; exact h

/-- `hz_midi f = m` as soon as `69 + 12*log2(f/440)` lies in
`[m - 1/2, m + 1/2)`. -/
lemma hz_midi_eq {f : ℝ} {m : ℤ}
    (h1 : (m : ℝ) - 1 / 2 ≤ 69 + 12 * Real.logb 2 (f / 440))
    (h2 : 69 + 12 * Real.logb 2 (f / 440) < (m : ℝ) + 1 / 2) :
    hz_midi f = m := by
  unfold hz_midi
  rw [round_eq]
  rw [Int.floor_eq_iff]
  constructor <;> push_cast <;> linarith

lemma hz_midi_440 : hz_midi 440 = 69 := by
  have h : Real.logb 2 ((440 : ℝ) / 440) = 0 := by
    rw [show ((440 : ℝ) / 440) = 1 by norm_num, Real.logb_one]
  apply hz_midi_eq <;> rw [h] <;> norm_num

lemma hz_to_note_of_midi {f : ℝ} {m : ℤ} (hf : ¬ f ≤ 0) (hm : hz_midi f = m) :
    hz_to_note f =
      some (NOTE_NAMES.getD (m % 12).toNat "" ++ toString (m.ediv 12 - 1)) := by
  rw [hz_to_note, if_neg hf, hm]

lemma hz_to_note_440 : hz_to_note 440 = some "A4" := by
  rw [hz_to_note_of_midi (by norm_num) hz_midi_440]
  rfl

/-- Bounds for `log2(247/220)`, used to quantize 494 Hz (a B4). -/
lemma logb_247_220_bounds :
    (1 : ℝ) / 8 ≤ Real.logb 2 (247 / 220) ∧ Real.logb 2 (247 / 220) < 5 / 24 := by
  constructor
  · have := le_logb2_of_pow (x := (247 : ℝ) / 220) (p := 1) (q := 8)
      (by norm_num) (by norm_num) (by norm_num)
    simpa using this
  · have := logb2_lt_of_pow (x := (247 : ℝ) / 220) (p := 5) (q := 24)
      (by norm_num) (by norm_num) (by norm_num)
    simpa using this

lemma hz_midi_494 : hz_midi 494 = 71 := by
  have harg : ((494 : ℝ) / 440) = 247 / 220 := by norm_num
  obtain ⟨hlo, hhi⟩ := logb_247_220_bounds
  apply hz_midi_eq <;> rw [harg] <;> push_cast <;> linarith

lemma hz_to_note_494 : hz_to_note 494 = some "B4" := by
  rw [hz_to_note_of_midi (by norm_num) hz_midi_494]
  rfl

/-- Bounds for `log2(22/13)`, used to quantize 260 Hz (just under a C4). -/
lemma logb_22_13_bounds :
    (3 : ℝ) / 4 < Real.logb 2 (22 / 13) ∧ Real.logb 2 (22 / 13) ≤ 19 / 24 := by
  constructor
  · have := lt_logb2_of_pow (x := (22 : ℝ) / 13) (p := 3) (q := 4)
      (by norm_num) (by norm_num) (by norm_num)
    simpa using this
  · have := logb2_le_of_pow (x := (22 : ℝ) / 13) (p := 19) (q := 24)
      (by norm_num) (by norm_num) (by norm_num)
    simpa using this

lemma logb_260_440 :
    Real.logb 2 ((260 : ℝ) / 440) = -Real.logb 2 (22 / 13) := by
  rw [show ((260 : ℝ) / 440) = ((22 : ℝ) / 13)⁻¹ by norm_num, Real.logb_inv]

lemma hz_midi_260 : hz_midi 260 = 60 := by
  obtain ⟨hlo, hhi⟩ := logb_22_13_bounds
  apply hz_midi_eq <;> rw [logb_260_440] <;> push_cast <;> linarith

lemma hz_to_note_260 : hz_to_note 260 = some "C4" := by
  rw [hz_to_note_of_midi (by norm_num) hz_midi_260]
  rfl

lemma pitch_to_note_260 : pitch_to_note 260 = "C3" := by
  obtain ⟨hlo, hhi⟩ := logb_22_13_bounds
  have hround : (round (12 * Real.logb 2 ((260 : ℝ) / 440) + 9) : ℤ) = 0 := by
    rw [logb_260_440, round_eq, Int.floor_eq_iff]
    push_cast
    constructor <;> linarith
  have hfloor : ⌊(12 * Real.logb 2 ((260 : ℝ) / 440) + 9) / 12⌋ = (-1 : ℤ) := by
    rw [logb_260_440, Int.floor_eq_iff]
    push_cast
    constructor
    · rw [le_div_iff₀ (by norm_num : (0 : ℝ) < 12)]
      linarith
    · have hnum : 12 * -Real.logb 2 ((22 : ℝ) / 13) + 9 < 0 := by linarith
      calc (12 * -Real.logb 2 ((22 : ℝ) / 13) + 9) / 12
          < 0 := div_neg_of_neg_of_pos hnum (by norm_num)
        _ ≤ -1 + 1 := by norm_num
  rw [pitch_to_note, if_neg (by norm_num : ¬ (260 : ℝ) ≤ 0), hround, hfloor]
  rfl

/-- C2 (code-bug evaluation): at 260 Hz the spec formula - and
`hz_to_note`, which implements it - gives C4 (MIDI 60), but
`pitch_to_note` returns "C3": its octave term `4 + (half_steps + 9) // 12`
floors the *unrounded* half-step value, so for a frequency within half a
semitone below a C the printed octave is one too low and the two
quantizers disagree. -/
theorem C2_pitch_to_note_octave_divergence :
    hz_to_note 260 = some "C4" ∧ pitch_to_note 260 = "C3" ∧
    some (pitch_to_note 260) ≠ hz_to_note 260 := by
  refine ⟨hz_to_note_260, pitch_to_note_260, ?_⟩
  rw [hz_to_note_260, pitch_to_note_260]
  simp

/-! ### Stream stabilizer (the stable-note print loop of `test_crepe.py`) -/

/-- `MIN_NOTE_MS = 80` from `test_crepe.py`. -/
def MIN_NOTE_MS : ℕ := 80

/-- `STEP_MS = 10` from `test_crepe.py`. -/
def STEP_MS : ℕ := 10

/-- `MIN_NOTE_FRAMES = int(round(MIN_NOTE_MS / STEP_MS))`: the division is
exact, so the value is 8. -/
def MIN_NOTE_FRAMES : ℕ := MIN_NOTE_MS / STEP_MS

/-- The state of the stable-note loop: the `current_note` and
`current_count` variables of `test_crepe.py`. -/
structure SState where
  current_note : Option String
  current_count : ℕ

/-- The validity-and-quantization of one `(t, f)` frame: `none` when
`not np.isfinite(f) or f <= 0` (NaN modelled as `none`) and also in the
dead `hz_to_note = None` branch, otherwise the quantized note. -/
noncomputable def frame_note : ℝ × Option ℝ → Option String
  | (_, none) => none
  | (_, some f) => if f ≤ 0 then none else hz_to_note f

/-- One iteration of the stable-note stream loop of `test_crepe.py`
(lines 66-84), with the `print` modelled as an optional `(t, note)`
emission.  `min_frames` is the configurable `MIN_NOTE_FRAMES` knob. -/
noncomputable def stab_step (min_frames : ℕ) (s : SState) :
    ℝ × Option ℝ → SState × Option (ℝ × String)
  | (_, none) => (⟨none, 0⟩, none)
  | (t, some f) =>
    if f ≤ 0 then (⟨none, 0⟩, none)
    else
      match hz_to_note f with
      | none => (s, none)
      | some note =>
        let s' : SState :=
          if s.current_note = some note then ⟨s.current_note, s.current_count + 1⟩
          else ⟨some note, 1⟩
        (s', if s'.current_count = min_frames then some (t, note) else none)

/-- The stable-note loop run from an arbitrary state, collecting the
emissions in order. -/
noncomputable def stab_run_from (min_frames : ℕ) (s : SState) :
    List (ℝ × Option ℝ) → SState × List (ℝ × String)
  | [] => (s, [])
  | tf :: rest =>
    let r := stab_step min_frames s tf
    let k := stab_run_from min_frames r.1 rest
    (k.1, r.2.toList ++ k.2)

/-- The stable-note loop of `test_crepe.py`, started from
`current_note = None`, `current_count = 0`. -/
noncomputable def stab_run (min_frames : ℕ) (frames : List (ℝ × Option ℝ)) :
    SState × List (ℝ × String) :=
  stab_run_from min_frames ⟨none, 0⟩ frames

lemma frame_note_none (t : ℝ) : frame_note (t, none) = none := rfl

lemma frame_note_440 (t : ℝ) : frame_note (t, some 440) = some "A4" := by
  rw [frame_note]
  simp only [if_neg (by norm_num : ¬ (440 : ℝ) ≤ 0)]
  exact hz_to_note_440

lemma frame_note_494 (t : ℝ) : frame_note (t, some 494) = some "B4" := by
  rw [frame_note]
  simp only [if_neg (by norm_num : ¬ (494 : ℝ) ≤ 0)]
  exact hz_to_note_494

lemma stab_step_invalid {m : ℕ} {s : SState} {tf : ℝ × Option ℝ}
    (h : frame_note tf = none) : stab_step m s tf = (⟨none, 0⟩, none) := by
  obtain ⟨t, f⟩ := tf
  cases f with
  | none => rfl
  | some v =>
    simp only [frame_note] at h
    by_cases hv : v ≤ 0
    · simp only [stab_step, if_pos hv]
    · rw [if_neg hv, hz_to_note, if_neg hv] at h
      exact absurd h (by simp)

lemma stab_step_same {m : ℕ} {s : SState} {tf : ℝ × Option ℝ} {n : String}
    (h : frame_note tf = some n) (hc : s.current_note = some n) :
    stab_step m s tf =
      (⟨some n, s.current_count + 1⟩,
       if s.current_count + 1 = m then some (tf.1, n) else none) := by
  obtain ⟨t, f⟩ := tf
  cases f with
  | none => exact absurd h (by simp [frame_note])
  | some v =>
    simp only [frame_note] at h
    by_cases hv : v ≤ 0
    · rw [if_pos hv] at h; exact absurd h (by simp)
    · rw [if_neg hv] at h
      simp [stab_step, if_neg hv, h, hc]

lemma stab_step_new {m : ℕ} {s : SState} {tf : ℝ × Option ℝ} {n : String}
    (h : frame_note tf = some n) (hc : ¬ s.current_note = some n) :
    stab_step m s tf =
      (⟨some n, 1⟩, if 1 = m then some (tf.1, n) else none) := by
  obtain ⟨t, f⟩ := tf
  cases f with
  | none => exact absurd h (by simp [frame_note])
  | some v =>
    simp only [frame_note] at h
    by_cases hv : v ≤ 0
    · rw [if_pos hv] at h; exact absurd h (by simp)
    · rw [if_neg hv] at h
      simp [stab_step, if_neg hv, h, hc]

lemma stab_run_from_append (m : ℕ) (s : SState) (xs ys : List (ℝ × Option ℝ)) :
    stab_run_from m s (xs ++ ys) =
      ((stab_run_from m (stab_run_from m s xs).1 ys).1,
       (stab_run_from m s xs).2 ++ (stab_run_from m (stab_run_from m s xs).1 ys).2) := by
  induction xs generalizing s with
  | nil => simp [stab_run_from]
  | cons tf rest ih => simp [stab_run_from, ih, List.append_assoc]

/-! ### Batch event builder (MIDI-generation loop of `test_crepe.py`) -/

/-- `MIN_MIDI_NOTE_MS = 200` from `test_crepe.py`. -/
def MIN_MIDI_NOTE_MS : ℕ := 200

/-- `MIN_MIDI_NOTE_S = MIN_MIDI_NOTE_MS / 1000.0` from `test_crepe.py`. -/
noncomputable def MIN_MIDI_NOTE_S : ℝ := (MIN_MIDI_NOTE_MS : ℝ) / 1000

/-- The state of the batch event loop of `test_crepe.py` (lines 105-128):
`current_note`, `current_start`, `current_count` and the accumulated
`events` list. -/
structure BState where
  current_note : Option String
  current_start : ℝ
  current_count : ℕ
  events : List (String × ℝ × ℝ)

/-- Initial state: `current_note = None`, `current_start = None`
(modelled as `0`; it is written before it is ever read, because an event
is only appended when `current_note` is not `None`), `current_count = 0`,
`events = []`. -/
def init_bstate : BState := ⟨none, 0, 0, []⟩

/-- One iteration of the batch event loop of `test_crepe.py`
(lines 109-128).  On an invalid frame only `current_count` is reset - the
source comment reads `IMPORTANT: do NOT close the note yet`.  On a note
change the previous note (if any) is closed at the current time `t` and
the new note is opened at `t`. -/
noncomputable def build_step (s : BState) : ℝ × Option ℝ → BState
  | (_, none) => { s with current_count := 0 }
  | (t, some f) =>
    if f ≤ 0 then { s with current_count := 0 }
    else
      match hz_to_note f with
      | none => s
      | some note =>
        if s.current_note = some note then { s with current_count := s.current_count + 1 }
        else
          { current_note := some note
            current_start := t
            current_count := 1
            events := s.events ++ (match s.current_note with
              | some prev => [(prev, s.current_start, t)]
              | none => []) }

/-- The batch event loop run from an arbitrary state. -/
noncomputable def build_run_from (s : BState) (frames : List (ℝ × Option ℝ)) : BState :=
  frames.foldl build_step s

/-- The batch event loop of `test_crepe.py`, from the initial state. -/
noncomputable def build_run (frames : List (ℝ × Option ℝ)) : BState :=
  build_run_from init_bstate frames

/-- `time[-1]`: the timestamp of the last frame (with a default for the
empty trajectory, on which the source would raise). -/
def lastTimeD (frames : List (ℝ × Option ℝ)) (d : ℝ) : ℝ :=
  (frames.getLastD (d, none)).1

/-- The events after the loop plus the final flush of `test_crepe.py`
(lines 130-132): an open note is closed at `time[-1]`. -/
noncomputable def build_events (frames : List (ℝ × Option ℝ)) : List (String × ℝ × ℝ) :=
  match (build_run frames).current_note with
  | none => (build_run frames).events
  | some n =>
    (build_run frames).events ++ [(n, (build_run frames).current_start, lastTimeD frames 0)]

/-- The ghost-note filter of `test_crepe.py` (lines 137-141): keep an
event only when `end - start >= MIN_MIDI_NOTE_S`. -/
noncomputable def ghost_filter (evs : List (String × ℝ × ℝ)) : List (String × ℝ × ℝ) :=
  evs.filter fun e => MIN_MIDI_NOTE_S ≤ e.2.2 - e.2.1

/-- The legato pass of the MIDI write loop of `test_crepe.py`
(lines 150-153): every event but the last gets its end overwritten with
the next event's start; the last keeps its natural end. -/
def legato : List (String × ℝ × ℝ) → List (String × ℝ × ℝ)
  | [] => []
  | [e] => [e]
  | e :: next :: rest => (e.1, e.2.1, next.2.1) :: legato (next :: rest)

/-- The full offline pipeline: batch events, ghost-note filter, legato. -/
noncomputable def build_pipeline (frames : List (ℝ × Option ℝ)) : List (String × ℝ × ℝ) :=
  legato (ghost_filter (build_events frames))

lemma build_step_invalid {s : BState} {tf : ℝ × Option ℝ}
    (h : frame_note tf = none) : build_step s tf = { s with current_count := 0 } := by
  obtain ⟨t, f⟩ := tf
  cases f with
  | none => rfl
  | some v =>
    simp only [frame_note] at h
    by_cases hv : v ≤ 0
    · simp only [build_step, if_pos hv]
    · rw [if_neg hv, hz_to_note, if_neg hv] at h
      exact absurd h (by simp)

lemma build_step_same {s : BState} {tf : ℝ × Option ℝ} {n : String}
    (h : frame_note tf = some n) (hc : s.current_note = some n) :
    build_step s tf = { s with current_count := s.current_count + 1 } := by
  obtain ⟨t, f⟩ := tf
  cases f with
  | none => exact absurd h (by simp [frame_note])
  | some v =>
    simp only [frame_note] at h
    by_cases hv : v ≤ 0
    · rw [if_pos hv] at h; exact absurd h (by simp)
    · rw [if_neg hv] at h
      simp [build_step, if_neg hv, h, hc]

lemma build_step_new {s : BState} {tf : ℝ × Option ℝ} {n : String}
    (h : frame_note tf = some n) (hc : ¬ s.current_note = some n) :
    build_step s tf =
      ⟨some n, tf.1, 1,
       s.events ++ (match s.current_note with
         | some prev => [(prev, s.current_start, tf.1)]
         | none => [])⟩ := by
  obtain ⟨t, f⟩ := tf
  cases f with
  | none => exact absurd h (by simp [frame_note])
  | some v =>
    simp only [frame_note] at h
    by_cases hv : v ≤ 0
    · rw [if_pos hv] at h; exact absurd h (by simp)
    · rw [if_neg hv] at h
      simp [build_step, if_neg hv, h, hc]

/-- A block of invalid frames leaves note, start and events unchanged. -/
lemma build_run_from_invalid {gap : List (ℝ × Option ℝ)}
    (hgap : ∀ tf ∈ gap, frame_note tf = none) (s : BState) :
    (build_run_from s gap).current_note = s.current_note ∧
    (build_run_from s gap).current_start = s.current_start ∧
    (build_run_from s gap).events = s.events := by
  induction gap generalizing s with
  | nil => exact ⟨rfl, rfl, rfl⟩
  | cons tf rest ih =>
    have hstep := build_step_invalid (s := s) (hgap tf (List.mem_cons_self tf rest))
    have hrest := ih (fun tf' h' => hgap tf' (List.mem_cons_of_mem tf h'))
      { s with current_count := 0 }
    rw [build_run_from, List.foldl_cons, hstep]
    exact hrest

/-- A block of frames all quantizing to the currently tracked note leaves
note, start and events unchanged. -/
lemma build_run_from_same {blk : List (ℝ × Option ℝ)} {n : String}
    (hblk : ∀ tf ∈ blk, frame_note tf = some n) (s : BState)
    (hc : s.current_note = some n) :
    (build_run_from s blk).current_note = s.current_note ∧
    (build_run_from s blk).current_start = s.current_start ∧
    (build_run_from s blk).events = s.events := by
  induction blk generalizing s with
  | nil => exact ⟨rfl, rfl, rfl⟩
  | cons tf rest ih =>
    have hstep := build_step_same (s := s) (hblk tf (List.mem_cons_self tf rest)) hc
    have hrest := ih (fun tf' h' => hblk tf' (List.mem_cons_of_mem tf h'))
      { s with current_count := s.current_count + 1 } hc
    rw [build_run_from, List.foldl_cons, hstep]
    exact hrest

lemma build_run_from_append (s : BState) (xs ys : List (ℝ × Option ℝ)) :
    build_run_from s (xs ++ ys) = build_run_from (build_run_from s xs) ys := by
  simp [build_run_from, List.foldl_append]

/-- `build_events` when a note is still open at the end of the input. -/
lemma build_events_eq_of_note {frames : List (ℝ × Option ℝ)} {n : String}
    (h : (build_run frames).current_note = some n) :
    build_events frames =
      (build_run frames).events ++
        [(n, (build_run frames).current_start, lastTimeD frames 0)] := by
  simp only [build_events, h]

/-! ### Run-length lemmas for the stream stabilizer -/

/-- Once the tracked count has reached `m`, further frames of the same
note emit nothing (the count moves strictly above `m` and the emission
test is an equality test). -/
lemma stab_locked {m : ℕ} {n : String} {blk : List (ℝ × Option ℝ)}
    (hblk : ∀ tf ∈ blk, frame_note tf = some n) :
    ∀ s : SState, s.current_note = some n → m ≤ s.current_count →
      (stab_run_from m s blk).2 = [] ∧
      (stab_run_from m s blk).1.current_note = some n ∧
      m ≤ (stab_run_from m s blk).1.current_count := by
  induction blk with
  | nil => intro s hn hc; exact ⟨rfl, hn, hc⟩
  | cons tf rest ih =>
    intro s hn hc
    have hstep := stab_step_same (m := m) (s := s) (hblk tf (List.mem_cons_self tf rest)) hn
    have hne : ¬ (s.current_count + 1 = m) := by omega
    have hrest := ih (fun tf' h' => hblk tf' (List.mem_cons_of_mem tf h'))
      ⟨some n, s.current_count + 1⟩ rfl (le_trans hc (Nat.le_succ _))
    simp only [stab_run_from, hstep, if_neg hne, Option.toList_none, List.nil_append]
    exact hrest

/-- From a state already tracking note `n`, a block of `n`-frames emits at
most once. -/
lemma stab_run_from_tracking {m : ℕ} {n : String} {blk : List (ℝ × Option ℝ)}
    (hblk : ∀ tf ∈ blk, frame_note tf = some n) :
    ∀ s : SState, s.current_note = some n →
      (stab_run_from m s blk).2.length ≤ 1 := by
  induction blk with
  | nil => intro s _; simp [stab_run_from]
  | cons tf rest ih =>
    intro s hn
    have hstep := stab_step_same (m := m) (s := s) (hblk tf (List.mem_cons_self tf rest)) hn
    by_cases hm : s.current_count + 1 = m
    · have hlock := stab_locked (m := m) (fun tf' h' => hblk tf' (List.mem_cons_of_mem tf h'))
        ⟨some n, s.current_count + 1⟩ rfl hm.ge
      simp only [stab_run_from, hstep, if_pos hm, Option.toList_some]
      simp [hlock.1]
    · have hrest := ih (fun tf' h' => hblk tf' (List.mem_cons_of_mem tf h'))
        ⟨some n, s.current_count + 1⟩ rfl
      simp only [stab_run_from, hstep, if_neg hm, Option.toList_none, List.nil_append]
      exact hrest

/-- From any state, a block of frames all quantizing to the same note `n`
emits at most once. -/
lemma stab_run_from_block {m : ℕ} {n : String} {blk : List (ℝ × Option ℝ)}
    (hblk : ∀ tf ∈ blk, frame_note tf = some n) (s : SState) :
    (stab_run_from m s blk).2.length ≤ 1 := by
  cases blk with
  | nil => simp [stab_run_from]
  | cons tf rest =>
    by_cases hc : s.current_note = some n
    · exact stab_run_from_tracking hblk s hc
    · have hstep := stab_step_new (m := m) (s := s) (hblk tf (List.mem_cons_self tf rest)) hc
      by_cases hm : 1 = m
      · have hlock := stab_locked (m := m) (fun tf' h' => hblk tf' (List.mem_cons_of_mem tf h'))
          ⟨some n, 1⟩ rfl hm.ge
        simp only [stab_run_from, hstep, if_pos hm, Option.toList_some]
        simp [hlock.1]
      · have htr := stab_run_from_tracking (m := m)
          (fun tf' h' => hblk tf' (List.mem_cons_of_mem tf h')) ⟨some n, 1⟩ rfl
        simp only [stab_run_from, hstep, if_neg hm, Option.toList_none, List.nil_append]
        exact htr

/-! ### Claims C3 and C4: the stream stabilizer -/

/-- C3: for every input frame sequence, the stream stabilizer emits at
most one event per run of consecutive valid frames quantizing to the same
note: appending any block of same-note valid frames to any prefix grows
the emission list by at most one, so two emissions of the same note are
always separated by an invalid frame or a differing note. -/
theorem C3_stabilizer_at_most_one_emission_per_run
    (m : ℕ) (pre blk : List (ℝ × Option ℝ)) (n : String)
    (hblk : ∀ tf ∈ blk, frame_note tf = some n) :
    ((stab_run m (pre ++ blk)).2).length ≤ ((stab_run m pre).2).length + 1 := by
  rw [stab_run, stab_run_from_append, stab_run]
  have hb := stab_run_from_block (m := m) hblk (stab_run_from m ⟨none, 0⟩ pre).1
  simp only [List.length_append]
  omega

/-- Witness for C3 at a concrete one-frame block of A4 at 440 Hz with the
source's `MIN_NOTE_FRAMES = 8`. -/
theorem C3_stabilizer_witness :
    (∀ tf ∈ [((0 : ℝ), some (440 : ℝ))], frame_note tf = some "A4") ∧
    ((stab_run 8 ([] ++ [((0 : ℝ), some (440 : ℝ))])).2).length ≤
      ((stab_run 8 []).2).length + 1 :=
  ⟨fun tf htf => by rw [List.mem_singleton] at htf; subst htf; exact frame_note_440 0,
   C3_stabilizer_at_most_one_emission_per_run 8 [] [((0 : ℝ), some (440 : ℝ))] "A4"
     (fun tf htf => by rw [List.mem_singleton] at htf; subst htf; exact frame_note_440 0)⟩

/-- C4: with `MIN_NOTE_FRAMES = 4` on the ten-frame sequence of five A4
frames (440 Hz) then five B4 frames (494 Hz) at times 0..9, the
stabilizer emits exactly two events: A4 at index 3 and B4 at index 8. -/
theorem C4_min_frames_4_two_emissions :
    stab_run 4 [((0 : ℝ), some (440 : ℝ)), (1, some 440), (2, some 440), (3, some 440),
        (4, some 440), (5, some 494), (6, some 494), (7, some 494), (8, some 494),
        (9, some 494)] =
      (⟨some "B4", 5⟩, [((3 : ℝ), "A4"), ((8 : ℝ), "B4")]) := by
  norm_num [stab_run, stab_run_from, stab_step, hz_to_note_440, hz_to_note_494]
  simp

/-! ### Claims C1 and C9: invalid frames and the batch event builder -/

/-- C1 counterexample: on the trajectory A4 (440 Hz) at t=0, invalid (NaN)
at t=1, A4 again at t=2, the batch builder does NOT close an event
`("A4", 0, 1)` at the invalid frame's time; the whole run yields the
single spanning event `("A4", 0, 2)`.  This refutes the claim that an
invalid frame always closes the currently open note. -/
theorem C1_counterexample_invalid_frame_closes_nothing :
    build_events [((0 : ℝ), some (440 : ℝ)), (1, none), (2, some 440)] = [("A4", 0, 2)] ∧
    ("A4", (0 : ℝ), (1 : ℝ)) ∉
      build_events [((0 : ℝ), some (440 : ℝ)), (1, none), (2, some 440)] := by
  have h : build_events [((0 : ℝ), some (440 : ℝ)), (1, none), (2, some 440)] =
      [("A4", 0, 2)] := by
    norm_num [build_events, build_run, build_run_from, build_step, init_bstate,
      hz_to_note_440, lastTimeD]
    simp
  refine ⟨h, ?_⟩
  rw [h]
  simp only [List.mem_singleton]
  intro hmem
  have : (1 : ℝ) = 2 := congrArg (fun e => e.2.2) hmem
  norm_num at this

/-- C1 amended: in the batch event builder an invalid frame only resets
the consecutive count (note, start and events are untouched, so nothing
is closed); a valid frame quantizing to the tracked note only increments
the count; an event is closed exactly when a valid frame's quantized note
differs from the tracked note (the end-of-input flush aside). -/
theorem C1_amended_closures_only_on_note_change
    (s : BState) (tf : ℝ × Option ℝ) (n : String) :
    (frame_note tf = none → build_step s tf = { s with current_count := 0 }) ∧
    (frame_note tf = some n → s.current_note = some n →
      build_step s tf = { s with current_count := s.current_count + 1 }) ∧
    (frame_note tf = some n → ¬ s.current_note = some n →
      (build_step s tf).events = s.events ++ (match s.current_note with
        | some prev => [(prev, s.current_start, tf.1)]
        | none => [])) :=
  ⟨fun h => build_step_invalid h,
   fun h hc => build_step_same h hc,
   fun h hc => by rw [build_step_new h hc]⟩

/-- Witness for the amended C1: an invalid frame at t=1 while A4 is
tracked leaves everything but the count unchanged. -/
theorem C1_amended_witness :
    frame_note ((1 : ℝ), (none : Option ℝ)) = none ∧
    build_step ⟨some "A4", 0, 3, []⟩ ((1 : ℝ), (none : Option ℝ)) =
      { (⟨some "A4", 0, 3, []⟩ : BState) with current_count := 0 } :=
  ⟨rfl,
   (C1_amended_closures_only_on_note_change ⟨some "A4", 0, 3, []⟩
     ((1 : ℝ), (none : Option ℝ)) "A4").1 rfl⟩

/-- C9: invalid frames do not by themselves close the open note.  If after
some prefix the builder tracks note `n`, then an all-invalid gap followed
by frames quantizing to `n` again leaves the events and the tracked start
unchanged - no event boundary at the gap - and the final flush produces
the single event spanning from the original start to the last timestamp. -/
theorem C9_invalid_gap_no_event_boundary
    (pre gap resume : List (ℝ × Option ℝ)) (n : String)
    (hn : (build_run pre).current_note = some n)
    (hgap : ∀ tf ∈ gap, frame_note tf = none)
    (hres : ∀ tf ∈ resume, frame_note tf = some n) :
    (build_run (pre ++ gap ++ resume)).events = (build_run pre).events ∧
    (build_run (pre ++ gap ++ resume)).current_start = (build_run pre).current_start ∧
    build_events (pre ++ gap ++ resume) =
      (build_run pre).events ++
        [(n, (build_run pre).current_start, lastTimeD (pre ++ gap ++ resume) 0)] := by
  have hsplit : build_run (pre ++ gap ++ resume) =
      build_run_from (build_run_from (build_run pre) gap) resume := by
    rw [build_run, build_run, build_run_from_append, build_run_from_append]
  obtain ⟨g1, g2, g3⟩ := build_run_from_invalid hgap (build_run pre)
  have hnote_g : (build_run_from (build_run pre) gap).current_note = some n := by
    rw [g1]; exact hn
  obtain ⟨r1, r2, r3⟩ := build_run_from_same hres (build_run_from (build_run pre) gap) hnote_g
  have hfin : (build_run (pre ++ gap ++ resume)).current_note = some n := by
    rw [hsplit, r1]; exact hnote_g
  refine ⟨?_, ?_, ?_⟩
  · rw [hsplit, r3, g3]
  · rw [hsplit, r2, g2]
  · rw [build_events_eq_of_note hfin, hsplit, r3, g3, r2, g2]

/-! ### Claim C7: ordering invariants of the full offline pipeline -/

/-- The ordering relation between two finished events: the earlier one
ends no later than the later one starts, and starts strictly before it. -/
def ev_le (a b : String × ℝ × ℝ) : Prop := a.2.2 ≤ b.2.1 ∧ a.2.1 < b.2.1

/-- Invariant of the batch builder state: events are pairwise ordered and
strictly positive-length, an idle builder has no events, and a tracking
builder opened its note no later than `h` (an upper bound on all times
processed so far) and after every recorded event. -/
def BInv (s : BState) (h : ℝ) : Prop :=
  List.Pairwise ev_le s.events ∧
  (∀ e ∈ s.events, e.2.1 < e.2.2) ∧
  (s.current_note = none → s.events = []) ∧
  (∀ n, s.current_note = some n → s.current_start ≤ h ∧
    ∀ e ∈ s.events, e.2.2 ≤ s.current_start ∧ e.2.1 < s.current_start)

lemma BInv_mono {s : BState} {h h' : ℝ} (hs : BInv s h) (hh : h ≤ h') : BInv s h' :=
  ⟨hs.1, hs.2.1, hs.2.2.1,
   fun n hn => ⟨le_trans ((hs.2.2.2 n hn).1) hh, (hs.2.2.2 n hn).2⟩⟩

lemma BInv_init (h : ℝ) : BInv init_bstate h :=
  ⟨List.Pairwise.nil, by simp [init_bstate], fun _ => rfl,
   fun n hn => by simp [init_bstate] at hn⟩

lemma BInv_step {s : BState} {h : ℝ} {tf : ℝ × Option ℝ}
    (hs : BInv s h) (ht : h < tf.1) : BInv (build_step s tf) tf.1 := by
  rcases hfn : frame_note tf with _ | nt
  · rw [build_step_invalid hfn]
    exact BInv_mono hs ht.le
  · by_cases hc : s.current_note = some nt
    · rw [build_step_same hfn hc]
      exact BInv_mono hs ht.le
    · rw [build_step_new hfn hc]
      rcases hcur : s.current_note with _ | pn
      · have he : s.events = [] := hs.2.2.1 hcur
        show BInv ⟨some nt, tf.1, 1, s.events ++ []⟩ tf.1
        rw [he]
        exact ⟨List.Pairwise.nil, by simp, fun _ => rfl, fun n hn => ⟨le_refl _, by simp⟩⟩
      · have hsome := hs.2.2.2 pn hcur
        have hcs : s.current_start < tf.1 := lt_of_le_of_lt hsome.1 ht
        show BInv ⟨some nt, tf.1, 1, s.events ++ [(pn, s.current_start, tf.1)]⟩ tf.1
        refine ⟨?_, ?_, ?_, ?_⟩
        · apply List.pairwise_append.mpr
          refine ⟨hs.1, List.pairwise_singleton _ _, ?_⟩
          intro a ha b hb
          rw [List.mem_singleton] at hb
          subst hb
          exact ⟨(hsome.2 a ha).1, (hsome.2 a ha).2⟩
        · intro e he
          rcases List.mem_append.mp he with h1 | h1
          · exact hs.2.1 e h1
          · rw [List.mem_singleton] at h1
            subst h1
            exact hcs
        · intro hno
          exact absurd hno (by simp)
        · intro n hn
          refine ⟨le_refl _, ?_⟩
          intro e he
          rcases List.mem_append.mp he with h1 | h1
          · exact ⟨le_trans (hsome.2 e h1).1 hcs.le, lt_trans (hsome.2 e h1).2 hcs⟩
          · rw [List.mem_singleton] at h1
            subst h1
            exact ⟨le_refl _, hcs⟩

lemma lastTimeD_cons (tf : ℝ × Option ℝ) (rest : List (ℝ × Option ℝ)) (d : ℝ) :
    lastTimeD (tf :: rest) d = lastTimeD rest tf.1 := by
  cases rest with
  | nil => rfl
  | cons b bs =>
    show ((tf :: b :: bs).getLastD (d, none)).1 = ((b :: bs).getLastD (tf.1, none)).1
    rw [List.getLastD_cons, List.getLastD_cons, List.getLastD_cons]

lemma lastTimeD_congr {frames : List (ℝ × Option ℝ)} (hne : frames ≠ []) (d d' : ℝ) :
    lastTimeD frames d = lastTimeD frames d' := by
  cases frames with
  | nil => exact absurd rfl hne
  | cons a l =>
    show ((a :: l).getLastD (d, none)).1 = ((a :: l).getLastD (d', none)).1
    rw [List.getLastD_cons, List.getLastD_cons]

lemma BInv_fold {frames : List (ℝ × Option ℝ)} :
    ∀ {s : BState} {h : ℝ}, BInv s h → (∀ tf ∈ frames, h < tf.1) →
      List.Pairwise (fun a b => a.1 < b.1) frames →
      BInv (build_run_from s frames) (lastTimeD frames h) := by
  induction frames with
  | nil => intro s h hs _ _; exact hs
  | cons tf rest ih =>
    intro s h hs hh hp
    have h1 : h < tf.1 := hh tf (List.mem_cons_self tf rest)
    have hstep := BInv_step hs h1
    have hrest := ih hstep (fun tf' h' => (List.pairwise_cons.mp hp).1 tf' h')
      (List.pairwise_cons.mp hp).2
    rw [lastTimeD_cons]
    exact hrest

/-- After the builder plus flush, events are pairwise ordered and each has
`start ≤ end`, provided the input timestamps strictly increase. -/
lemma build_events_inv {frames : List (ℝ × Option ℝ)}
    (hp : List.Pairwise (fun a b => a.1 < b.1) frames) :
    List.Pairwise ev_le (build_events frames) ∧
    (∀ e ∈ build_events frames, e.2.1 ≤ e.2.2) := by
  cases frames with
  | nil =>
    constructor
    · simp [build_events, build_run, build_run_from, init_bstate]
    · intro e he
      simp [build_events, build_run, build_run_from, init_bstate] at he
  | cons tf rest =>
    have hlow : ∀ tf' ∈ tf :: rest, tf.1 - 1 < tf'.1 := by
      intro tf' h'
      rcases List.mem_cons.mp h' with h1 | h1
      · subst h1; linarith
      · have := (List.pairwise_cons.mp hp).1 tf' h1
        linarith
    have hinv := BInv_fold (BInv_init (tf.1 - 1)) hlow hp
    rcases hcn : (build_run (tf :: rest)).current_note with _ | n
    · have hev : build_events (tf :: rest) = (build_run (tf :: rest)).events := by
        simp only [build_events, hcn]
      rw [hev]
      exact ⟨hinv.1, fun e he => (hinv.2.1 e he).le⟩
    · rw [build_events_eq_of_note hcn]
      have hT : lastTimeD (tf :: rest) 0 = lastTimeD (tf :: rest) (tf.1 - 1) :=
        lastTimeD_congr (by simp) 0 (tf.1 - 1)
      have hsome := hinv.2.2.2 n hcn
      constructor
      · apply List.pairwise_append.mpr
        refine ⟨hinv.1, List.pairwise_singleton _ _, ?_⟩
        intro a ha b hb
        rw [List.mem_singleton] at hb
        subst hb
        exact ⟨(hsome.2 a ha).1, (hsome.2 a ha).2⟩
      · intro e he
        rcases List.mem_append.mp he with h1 | h1
        · exact (hinv.2.1 e h1).le
        · rw [List.mem_singleton] at h1
          subst h1
          rw [hT]
          exact hsome.1

lemma legato_single (e : String × ℝ × ℝ) : legato [e] = [e] := rfl

lemma legato_cons2 (a b : String × ℝ × ℝ) (rest : List (String × ℝ × ℝ)) :
    legato (a :: b :: rest) = (a.1, a.2.1, b.2.1) :: legato (b :: rest) := rfl

/-- Every start time in the legato output is a start time of the input. -/
lemma legato_mem_start :
    ∀ (l : List (String × ℝ × ℝ)) (x : String × ℝ × ℝ),
      x ∈ legato l → ∃ e ∈ l, x.2.1 = e.2.1
  | [], x, hx => by cases hx
  | [a], x, hx => by
    rw [legato_single, List.mem_singleton] at hx
    exact ⟨a, List.mem_singleton_self a, by rw [hx]⟩
  | a :: b :: rest, x, hx => by
    rw [legato_cons2] at hx
    rcases List.mem_cons.mp hx with h1 | h1
    · exact ⟨a, List.mem_cons_self a (b :: rest), by rw [h1]⟩
    · obtain ⟨e, hmem, heq⟩ := legato_mem_start (b :: rest) x h1
      exact ⟨e, List.mem_cons_of_mem a hmem, heq⟩

/-- The legato pass keeps the events ordered and non-degenerate when fed
strictly positive-length, pairwise ordered events. -/
lemma legato_sound :
    ∀ l : List (String × ℝ × ℝ), (∀ e ∈ l, e.2.1 < e.2.2) → List.Pairwise ev_le l →
      (∀ e ∈ legato l, e.2.1 ≤ e.2.2) ∧ List.Pairwise ev_le (legato l)
  | [], _, _ => ⟨(fun e he => by cases he), List.Pairwise.nil⟩
  | [a], hok, _ => by
    constructor
    · intro e he
      rw [legato_single, List.mem_singleton] at he
      rw [he]
      exact (hok a (List.mem_singleton_self a)).le
    · rw [legato_single]
      exact List.pairwise_singleton _ _
  | a :: b :: rest, hok, hpw => by
    have hab : ev_le a b := (List.pairwise_cons.mp hpw).1 b (List.mem_cons_self b rest)
    have htail := legato_sound (b :: rest) (fun e he => hok e (List.mem_cons_of_mem a he))
      (List.pairwise_cons.mp hpw).2
    constructor
    · intro e he
      rw [legato_cons2] at he
      rcases List.mem_cons.mp he with h1 | h1
      · rw [h1]
        exact hab.2.le
      · exact htail.1 e h1
    · rw [legato_cons2]
      apply List.pairwise_cons.mpr
      refine ⟨?_, htail.2⟩
      intro x hx
      obtain ⟨e, hmem, heq⟩ := legato_mem_start (b :: rest) x hx
      rcases List.mem_cons.mp hmem with h1 | h1
      · rw [h1] at heq
        exact ⟨by rw [heq], by rw [heq]; exact hab.2⟩
      · have hbe : ev_le b e := (List.pairwise_cons.mp (List.pairwise_cons.mp hpw).2).1 e h1
        exact ⟨by rw [heq]; exact hbe.2.le, by rw [heq]; exact lt_trans hab.2 hbe.2⟩

/-- C7: for every trajectory with strictly increasing timestamps, every
event of the final pipeline output (after ghost-note filtering and legato
correction) has `end_time ≥ start_time`, and the output is start-time
ascending and non-overlapping (each event ends no later than any later
event starts). -/
theorem C7_pipeline_ordered (frames : List (ℝ × Option ℝ))
    (ht : List.Chain' (fun a b => a.1 < b.1) frames) :
    (∀ e ∈ build_pipeline frames, e.2.1 ≤ e.2.2) ∧
    List.Pairwise (fun a b => a.2.2 ≤ b.2.1 ∧ a.2.1 < b.2.1) (build_pipeline frames) := by
  have hp : List.Pairwise (fun a b => a.1 < b.1) frames := by
    haveI : IsTrans (ℝ × Option ℝ) (fun a b => a.1 < b.1) :=
      ⟨fun _ _ _ h1 h2 => lt_trans h1 h2⟩
    rw [← List.chain'_iff_pairwise]
    exact ht
  obtain ⟨hpw, hok⟩ := build_events_inv hp
  have hpw2 : List.Pairwise ev_le (ghost_filter (build_events frames)) := hpw.filter _
  have hstrict : ∀ e ∈ ghost_filter (build_events frames), e.2.1 < e.2.2 := by
    intro e he
    have hmin : MIN_MIDI_NOTE_S ≤ e.2.2 - e.2.1 := by
      have := List.of_mem_filter he
      exact of_decide_eq_true this
    have hpos : (0 : ℝ) < MIN_MIDI_NOTE_S := by
      norm_num [MIN_MIDI_NOTE_S, MIN_MIDI_NOTE_MS]
    linarith
  have := legato_sound (ghost_filter (build_events frames)) hstrict hpw2
  exact ⟨this.1, this.2⟩

/-- Witness for C7 at a concrete two-frame A4 trajectory. -/
theorem C7_pipeline_witness :
    List.Chain' (fun (a b : ℝ × Option ℝ) => a.1 < b.1)
      [((0 : ℝ), some (440 : ℝ)), (1, some 440)] ∧
    (∀ e ∈ build_pipeline [((0 : ℝ), some (440 : ℝ)), (1, some 440)], e.2.1 ≤ e.2.2) :=
  ⟨by simp,
   (C7_pipeline_ordered [((0 : ℝ), some (440 : ℝ)), (1, some 440)] (by simp)).1⟩

/-- Witness for C9 at the concrete trajectory A4, invalid, A4 at times
0, 1, 2. -/
theorem C9_invalid_gap_witness :
    (build_run [((0 : ℝ), some (440 : ℝ))]).current_note = some "A4" ∧
    (build_run ([((0 : ℝ), some (440 : ℝ))] ++ [((1 : ℝ), (none : Option ℝ))] ++
        [((2 : ℝ), some (440 : ℝ))])).events =
      (build_run [((0 : ℝ), some (440 : ℝ))]).events := by
  have hn : (build_run [((0 : ℝ), some (440 : ℝ))]).current_note = some "A4" := by
    norm_num [build_run, build_run_from, build_step, init_bstate, hz_to_note_440]
    simp
  refine ⟨hn, ?_⟩
  exact (C9_invalid_gap_no_event_boundary [((0 : ℝ), some (440 : ℝ))]
    [((1 : ℝ), (none : Option ℝ))] [((2 : ℝ), some (440 : ℝ))] "A4" hn
    (fun tf htf => by rw [List.mem_singleton] at htf; subst htf; exact frame_note_none 1)
    (fun tf htf => by rw [List.mem_singleton] at htf; subst htf; exact frame_note_440 2)).1

/-! ### Zero-crossing pitch estimator (`AudioMonitor.get_pitch_and_frequency`)

The estimator is pure rational arithmetic, so it is embedded over `ℚ`.
The source compares `rms = sqrt(mean_square) < 0.0001`; both sides being
nonnegative, this is equivalent to `mean_square < 0.0001^2 = 1/10^8`,
which is the decidable form used here.  The function also returns a note
string (via `pitch_to_note`) and the rms; the claims concern only the
pitch and the buffer, so the embedding returns `(pitch, new buffer)`. -/

/-- `self.RATE = 44100` from `monitoring.py`. -/
def RATE : ℚ := 44100

/-- `sum(x ** 2 for x in audio_data) / len(audio_data)`: the square of the
rms computed in `get_pitch_and_frequency` (division by zero yields 0 in
`ℚ` - the source would raise on an empty block). -/
def mean_square (block : List ℚ) : ℚ :=
  (block.map fun x => x ^ 2).sum / block.length

/-- The zero-crossing count of `monitoring.py` lines 161-165: one per
adjacent pair with `(a[i-1] >= 0 and a[i] < 0) or (a[i-1] < 0 and a[i] >= 0)`. -/
def zero_crossings : List ℚ → ℕ
  | x :: y :: rest =>
    (if (0 ≤ x ∧ y < 0) ∨ (x < 0 ∧ 0 ≤ y) then 1 else 0) + zero_crossings (y :: rest)
  | _ => 0

/-- Appending to `self.pitch_buffer = deque(maxlen=5)`: the oldest entries
are dropped once the length exceeds 5. -/
def deque_append (buf : List ℚ) (x : ℚ) : List ℚ :=
  if 5 < (buf ++ [x]).length then (buf ++ [x]).drop ((buf ++ [x]).length - 5) else buf ++ [x]

/-- `AudioMonitor.get_pitch_and_frequency` (lines 145-182): returns the
optional stable pitch and the updated `pitch_buffer`.  The silence gate is
the squared-rms form above; `zero_crossings > 10`; `frequency =
(zero_crossings / 2.0) * RATE / len(block)`; the range gate is the strict
`50 < frequency < 2000`; on success the frequency is appended to the
buffer and the median `sorted_buffer[len(sorted_buffer) // 2]` of the
sorted buffer is returned. -/
def get_pitch_and_frequency (buf : List ℚ) (block : List ℚ) : Option ℚ × List ℚ :=
  if mean_square block < 1 / 10 ^ 8 then (none, buf)
  else if 10 < zero_crossings block then
    let frequency : ℚ := (zero_crossings block : ℚ) / 2 * RATE / block.length
    if 50 < frequency ∧ frequency < 2000 then
      let buf2 := deque_append buf frequency
      let sorted_buffer := buf2.insertionSort (· ≤ ·)
      (some (sorted_buffer.getD (sorted_buffer.length / 2) 0), buf2)
    else (none, buf)
  else (none, buf)

/-- The consumer loop of a whole session, from the initial empty buffer:
threads the persistent `pitch_buffer` through the blocks and collects
every returned pitch.  The buffer is never cleared between blocks. -/
def run_session_from (acc : List ℚ × List ℚ) (blocks : List (List ℚ)) : List ℚ × List ℚ :=
  blocks.foldl
    (fun acc block =>
      ((get_pitch_and_frequency acc.1 block).2,
       acc.2 ++ (get_pitch_and_frequency acc.1 block).1.toList))
    acc

/-- A session from the initial state (`pitch_buffer` empty). -/
def run_session (blocks : List (List ℚ)) : List ℚ × List ℚ :=
  run_session_from ([], []) blocks

lemma getD_mem : ∀ {l : List ℚ} {i : ℕ}, i < l.length → ∀ d : ℚ, l.getD i d ∈ l := by
  intro l
  induction l with
  | nil => intro i h d; cases h
  | cons a t ih =>
    intro i h d
    cases i with
    | zero => exact List.mem_cons_self a t
    | succ j => exact List.mem_cons_of_mem a (ih (Nat.lt_of_succ_lt_succ h) d)

lemma deque_append_length_pos (buf : List ℚ) (x : ℚ) : 0 < (deque_append buf x).length := by
  unfold deque_append
  by_cases h : 5 < (buf ++ [x]).length
  · rw [if_pos h, List.length_drop]
    omega
  · rw [if_neg h]
    simp

lemma deque_append_subset (buf : List ℚ) (x : ℚ) :
    ∀ y ∈ deque_append buf x, y ∈ buf ++ [x] := by
  intro y hy
  unfold deque_append at hy
  by_cases h : 5 < (buf ++ [x]).length
  · rw [if_pos h] at hy
    exact List.drop_subset _ _ hy
  · rw [if_neg h] at hy
    exact hy

/-- When the estimator succeeds, the returned pitch is a member of the
returned buffer. -/
lemma get_pitch_mem {buf block : List ℚ} {p : ℚ}
    (h : (get_pitch_and_frequency buf block).1 = some p) :
    p ∈ (get_pitch_and_frequency buf block).2 := by
  simp only [get_pitch_and_frequency] at h ⊢
  by_cases h1 : mean_square block < 1 / 10 ^ 8
  · rw [if_pos h1] at h
    exact Option.noConfusion h
  · rw [if_neg h1] at h ⊢
    by_cases h2 : 10 < zero_crossings block
    · rw [if_pos h2] at h ⊢
      by_cases h3 : 50 < (zero_crossings block : ℚ) / 2 * RATE / block.length ∧
          (zero_crossings block : ℚ) / 2 * RATE / block.length < 2000
      · rw [if_pos h3] at h ⊢
        have hp : p = ((deque_append buf ((zero_crossings block : ℚ) / 2 * RATE /
            block.length)).insertionSort (· ≤ ·)).getD
            (((deque_append buf ((zero_crossings block : ℚ) / 2 * RATE /
              block.length)).insertionSort (· ≤ ·)).length / 2) 0 :=
          (Option.some.inj h).symm
        have hlen : (((deque_append buf ((zero_crossings block : ℚ) / 2 * RATE /
            block.length)).insertionSort (· ≤ ·)).length / 2) <
            ((deque_append buf ((zero_crossings block : ℚ) / 2 * RATE /
              block.length)).insertionSort (· ≤ ·)).length := by
          have hl := (List.perm_insertionSort (· ≤ ·)
            (deque_append buf ((zero_crossings block : ℚ) / 2 * RATE / block.length))).length_eq
          have := deque_append_length_pos buf
            ((zero_crossings block : ℚ) / 2 * RATE / block.length)
          omega
        have hmem := getD_mem hlen 0
        rw [hp]
        exact ((List.perm_insertionSort (· ≤ ·) _).mem_iff).mp hmem
      · rw [if_neg h3] at h
        exact Option.noConfusion h
    · rw [if_neg h2] at h
      exact Option.noConfusion h

/-- When the estimator fails, the buffer is returned unchanged. -/
lemma get_pitch_none_buf {buf block : List ℚ}
    (h : (get_pitch_and_frequency buf block).1 = none) :
    (get_pitch_and_frequency buf block).2 = buf := by
  simp only [get_pitch_and_frequency] at h ⊢
  by_cases h1 : mean_square block < 1 / 10 ^ 8
  · rw [if_pos h1]
  · rw [if_neg h1] at h ⊢
    by_cases h2 : 10 < zero_crossings block
    · rw [if_pos h2] at h ⊢
      by_cases h3 : 50 < (zero_crossings block : ℚ) / 2 * RATE / block.length ∧
          (zero_crossings block : ℚ) / 2 * RATE / block.length < 2000
      · rw [if_pos h3] at h
        exact Option.noConfusion h
      · rw [if_neg h3]
    · rw [if_neg h2]

/-- One estimator step keeps every buffer element inside the open range
(50, 2000), and any returned pitch is in that range. -/
lemma get_pitch_range {buf block : List ℚ}
    (hb : ∀ x ∈ buf, 50 < x ∧ x < 2000) :
    (∀ x ∈ (get_pitch_and_frequency buf block).2, 50 < x ∧ x < 2000) ∧
    (∀ p, (get_pitch_and_frequency buf block).1 = some p → 50 < p ∧ p < 2000) := by
  by_cases h1 : mean_square block < 1 / 10 ^ 8
  · simp only [get_pitch_and_frequency]
    rw [if_pos h1]
    exact ⟨hb, fun p hp => Option.noConfusion hp⟩
  · by_cases h2 : 10 < zero_crossings block
    · by_cases h3 : 50 < (zero_crossings block : ℚ) / 2 * RATE / block.length ∧
          (zero_crossings block : ℚ) / 2 * RATE / block.length < 2000
      · have hbuf2 : ∀ x ∈ deque_append buf
            ((zero_crossings block : ℚ) / 2 * RATE / block.length), 50 < x ∧ x < 2000 := by
          intro x hx
          rcases List.mem_append.mp (deque_append_subset _ _ x hx) with hx1 | hx1
          · exact hb x hx1
          · rw [List.mem_singleton] at hx1
            subst hx1
            exact h3
        have hsnd : (get_pitch_and_frequency buf block).2 = deque_append buf
            ((zero_crossings block : ℚ) / 2 * RATE / block.length) := by
          simp only [get_pitch_and_frequency]
          rw [if_neg h1, if_pos h2, if_pos h3]
        refine ⟨by rw [hsnd]; exact hbuf2, ?_⟩
        intro p hp
        have := get_pitch_mem hp
        rw [hsnd] at this
        exact hbuf2 p this
      · simp only [get_pitch_and_frequency]
        rw [if_neg h1, if_pos h2, if_neg h3]
        exact ⟨hb, fun p hp => Option.noConfusion hp⟩
    · simp only [get_pitch_and_frequency]
      rw [if_neg h1, if_neg h2]
      exact ⟨hb, fun p hp => Option.noConfusion hp⟩

/-- The session invariant: a buffer and output list inside the range stay
inside the range. -/
lemma run_session_from_range :
    ∀ (blocks : List (List ℚ)) (buf out : List ℚ),
      (∀ x ∈ buf, 50 < x ∧ x < 2000) → (∀ p ∈ out, 50 < p ∧ p < 2000) →
      ∀ p ∈ (run_session_from (buf, out) blocks).2, 50 < p ∧ p < 2000 := by
  intro blocks
  induction blocks with
  | nil => intro buf out _ hout p hp; exact hout p hp
  | cons block rest ih =>
    intro buf out hbuf hout
    have hstep : (∀ x ∈ (get_pitch_and_frequency buf block).2, 50 < x ∧ x < 2000) ∧
        ∀ p, (get_pitch_and_frequency buf block).1 = some p → 50 < p ∧ p < 2000 :=
      get_pitch_range hbuf
    have hout2 : ∀ p ∈ out ++ (get_pitch_and_frequency buf block).1.toList,
        50 < p ∧ p < 2000 := by
      intro p hp
      rcases List.mem_append.mp hp with h1 | h1
      · exact hout p h1
      · rcases ho : (get_pitch_and_frequency buf block).1 with _ | q
        · rw [ho] at h1; cases h1
        · rw [ho, Option.toList_some, List.mem_singleton] at h1
          subst h1
          exact hstep.2 p ho
    exact ih (get_pitch_and_frequency buf block).2
      (out ++ (get_pitch_and_frequency buf block).1.toList) hstep.1 hout2

/-! ### Claims C5 and C10 -/

/-- C5 amended: for every block at or above the silence threshold, the
estimator produces a pitch if and only if the block has at least 11 sign
changes and the computed frequency lies in the OPEN interval
(50, 2000) Hz - the source gate is `50 < frequency < 2000`, strict on
both ends. -/
theorem C5_amended_open_interval (buf block : List ℚ)
    (hrms : ¬ mean_square block < 1 / 10 ^ 8) :
    (get_pitch_and_frequency buf block).1.isSome = true ↔
      (10 < zero_crossings block ∧
       50 < (zero_crossings block : ℚ) / 2 * RATE / block.length ∧
       (zero_crossings block : ℚ) / 2 * RATE / block.length < 2000) := by
  simp only [get_pitch_and_frequency]
  rw [if_neg hrms]
  by_cases h2 : 10 < zero_crossings block
  · rw [if_pos h2]
    by_cases h3 : 50 < (zero_crossings block : ℚ) / 2 * RATE / block.length ∧
        (zero_crossings block : ℚ) / 2 * RATE / block.length < 2000
    · rw [if_pos h3]
      simp [h2, h3]
    · rw [if_neg h3]
      simp [h2, h3]
  · rw [if_neg h2]
    simp [h2]

/-- A 441-sample block whose first 41 samples alternate sign (40 sign
changes) and whose remainder is constant 1: every sample is `±1`. -/
def cx_block : List ℚ :=
  (List.range 441).map fun i => if i < 41 ∧ i % 2 = 1 then -1 else 1

/-- A 441-sample block with 20 sign changes (frequency 1000 Hz). -/
def wit_block : List ℚ :=
  (List.range 441).map fun i => if i < 21 ∧ i % 2 = 1 then -1 else 1

set_option maxRecDepth 100000 in
lemma cx_block_zc : zero_crossings cx_block = 40 := by decide

set_option maxRecDepth 100000 in
lemma wit_block_zc : zero_crossings wit_block = 20 := by decide

lemma cx_block_length : cx_block.length = 441 := by
  simp [cx_block]

lemma wit_block_length : wit_block.length = 441 := by
  simp [wit_block]

lemma sum_sq_of_unit :
    ∀ l : List ℚ, (∀ x ∈ l, x ^ 2 = 1) → (l.map fun x => x ^ 2).sum = (l.length : ℚ) := by
  intro l
  induction l with
  | nil => intro _; simp
  | cons a t ih =>
    intro h
    have ha := h a (List.mem_cons_self a t)
    have ht := ih fun x hx => h x (List.mem_cons_of_mem a hx)
    simp only [List.map_cons, List.sum_cons, ha, ht, List.length_cons]
    push_cast
    ring

lemma cx_block_sq : ∀ x ∈ cx_block, x ^ 2 = 1 := by
  intro x hx
  simp only [cx_block, List.mem_map] at hx
  obtain ⟨i, _, rfl⟩ := hx
  split_ifs <;> norm_num

lemma wit_block_sq : ∀ x ∈ wit_block, x ^ 2 = 1 := by
  intro x hx
  simp only [wit_block, List.mem_map] at hx
  obtain ⟨i, _, rfl⟩ := hx
  split_ifs <;> norm_num

lemma cx_block_mean : mean_square cx_block = 1 := by
  rw [mean_square, sum_sq_of_unit _ cx_block_sq, cx_block_length]
  norm_num

lemma wit_block_mean : mean_square wit_block = 1 := by
  rw [mean_square, sum_sq_of_unit _ wit_block_sq, wit_block_length]
  norm_num

/-- C5 counterexample: on `cx_block` the rms passes the silence gate,
there are 40 ≥ 11 sign changes, and the computed frequency is exactly
2000 Hz - inside the claimed CLOSED interval [50, 2000] - yet the
estimator reports no pitch, because the code's gate is the strict
`50 < frequency < 2000`. -/
theorem C5_counterexample_closed_boundary :
    ¬ mean_square cx_block < 1 / 10 ^ 8 ∧
    10 < zero_crossings cx_block ∧
    (50 : ℚ) ≤ (zero_crossings cx_block : ℚ) / 2 * RATE / cx_block.length ∧
    (zero_crossings cx_block : ℚ) / 2 * RATE / cx_block.length ≤ 2000 ∧
    (get_pitch_and_frequency [] cx_block).1 = none := by
  have hfreq : (zero_crossings cx_block : ℚ) / 2 * RATE / cx_block.length = 2000 := by
    rw [cx_block_zc, cx_block_length, RATE]
    norm_num
  refine ⟨by rw [cx_block_mean]; norm_num, by rw [cx_block_zc]; norm_num,
    by rw [hfreq]; norm_num, by rw [hfreq], ?_⟩
  simp only [get_pitch_and_frequency]
  rw [if_neg (by rw [cx_block_mean]; norm_num),
    if_pos (show 10 < zero_crossings cx_block by rw [cx_block_zc]; norm_num),
    if_neg (by rw [hfreq]; norm_num)]

/-- Witness for the amended C5 at `wit_block` (frequency exactly
1000 Hz, which satisfies the open-interval gate). -/
theorem C5_amended_witness :
    ¬ mean_square wit_block < 1 / 10 ^ 8 ∧
    ((get_pitch_and_frequency [] wit_block).1.isSome = true ↔
      (10 < zero_crossings wit_block ∧
       50 < (zero_crossings wit_block : ℚ) / 2 * RATE / wit_block.length ∧
       (zero_crossings wit_block : ℚ) / 2 * RATE / wit_block.length < 2000)) :=
  ⟨by rw [wit_block_mean]; norm_num,
   C5_amended_open_interval [] wit_block (by rw [wit_block_mean]; norm_num)⟩

/-- C10: the returned stable pitch is always an element of the updated
rolling median buffer; a failed block leaves the buffer untouched (silent
and invalid blocks never clear it); and every pitch ever returned during
a session (buffer threaded from empty through all blocks) lies strictly
between 50 and 2000 Hz. -/
theorem C10_median_in_buffer_and_range :
    (∀ (buf block : List ℚ) (p : ℚ), (get_pitch_and_frequency buf block).1 = some p →
       p ∈ (get_pitch_and_frequency buf block).2) ∧
    (∀ buf block : List ℚ, (get_pitch_and_frequency buf block).1 = none →
       (get_pitch_and_frequency buf block).2 = buf) ∧
    (∀ blocks : List (List ℚ), ∀ p ∈ (run_session blocks).2, 50 < p ∧ p < 2000) :=
  ⟨fun _ _ _ h => get_pitch_mem h,
   fun _ _ h => get_pitch_none_buf h,
   fun blocks p hp =>
     run_session_from_range blocks [] [] (by simp) (by simp) p hp⟩

lemma wit_block_pitch :
    (get_pitch_and_frequency [] wit_block).1 = some 1000 := by
  have hfreq : (zero_crossings wit_block : ℚ) / 2 * RATE / wit_block.length = 1000 := by
    rw [wit_block_zc, wit_block_length, RATE]
    norm_num
  simp only [get_pitch_and_frequency]
  rw [if_neg (by rw [wit_block_mean]; norm_num),
    if_pos (show 10 < zero_crossings wit_block by rw [wit_block_zc]; norm_num),
    if_pos (by rw [hfreq]; norm_num)]
  rw [hfreq]
  simp [deque_append, List.insertionSort, List.orderedInsert]

/-- Witness for C10 at `wit_block`: the returned 1000 Hz is a member of
the resulting buffer. -/
theorem C10_witness :
    (get_pitch_and_frequency [] wit_block).1 = some 1000 ∧
    (1000 : ℚ) ∈ (get_pitch_and_frequency [] wit_block).2 :=
  ⟨wit_block_pitch,
   C10_median_in_buffer_and_range.1 [] wit_block 1000 wit_block_pitch⟩

/-! ### Debounced broadcaster (`AudioMonitor.start_monitoring`, claim C6) -/

/-- `self.PITCH_CHANGE_CENTS = 80` from `monitoring.py`. -/
def PITCH_CHANGE_CENTS : ℝ := 80

/-- `self.MIN_SEND_INTERVAL = 0.3` from `monitoring.py`. -/
def MIN_SEND_INTERVAL : ℝ := 0.3

/-- `AudioMonitor.cents_diff`: `abs(1200 * np.log2(a / b))`. -/
noncomputable def cents_diff (a b : ℝ) : ℝ := |1200 * Real.logb 2 (a / b)|

/-- The broadcaster's debounce state: `last_sent_pitch` (initially
`None`) and `last_sent_time` (initially `0.0`). -/
structure MState where
  last_sent_pitch : Option ℝ
  last_sent_time : ℝ

/-- One pass of the debounce gate in the consumer loop of
`start_monitoring` (lines 293-311): no pitch does nothing; the first
pitch is sent immediately; afterwards a pitch is sent if and only if
`cents_diff(pitch, last_sent_pitch) > PITCH_CHANGE_CENTS` and
`now - last_sent_time > MIN_SEND_INTERVAL`.  Returns the new state and
whether a datagram was sent. -/
noncomputable def broadcast_step (s : MState) (pitch : Option ℝ) (now : ℝ) :
    MState × Bool :=
  match pitch with
  | none => (s, false)
  | some p =>
    match s.last_sent_pitch with
    | none => (⟨some p, now⟩, true)
    | some lastp =>
      if PITCH_CHANGE_CENTS < cents_diff p lastp ∧
          MIN_SEND_INTERVAL < now - s.last_sent_time then
        (⟨some p, now⟩, true)
      else (s, false)

lemma cents_diff_445_440_lt : cents_diff 445 440 < 80 := by
  have harg : ((445 : ℝ) / 440) = 89 / 88 := by norm_num
  have hpos : (0 : ℝ) < Real.logb 2 ((89 : ℝ) / 88) :=
    Real.logb_pos one_lt_two (by norm_num)
  have hlt : Real.logb 2 ((89 : ℝ) / 88) < 1 / 15 := by
    have := logb2_lt_of_pow (x := (89 : ℝ) / 88) (p := 1) (q := 15)
      (by norm_num) (by norm_num) (by norm_num)
    simpa using this
  rw [cents_diff, harg, abs_of_pos (by positivity)]
  linarith

lemma cents_diff_466_440_gt : 80 < cents_diff 466 440 := by
  have harg : ((466 : ℝ) / 440) = 233 / 220 := by norm_num
  have hgt : (1 : ℝ) / 15 < Real.logb 2 ((233 : ℝ) / 220) := by
    have := lt_logb2_of_pow (x := (233 : ℝ) / 220) (p := 1) (q := 15)
      (by norm_num) (by norm_num) (by norm_num)
    simpa using this
  have hpos : (0 : ℝ) < Real.logb 2 ((233 : ℝ) / 220) := by linarith
  rw [cents_diff, harg, abs_of_pos (by positivity)]
  linarith

/-- C6: the debounced broadcaster sends the first observed pitch
immediately; afterwards it sends exactly when the cents difference
exceeds 80 and the interval since the last send exceeds 0.3 s; in
particular 440 → 445 Hz (≈19.6 cents) is never sent while 440 → 466 Hz
(≈99 cents) is sent whenever the interval has elapsed. -/
theorem C6_debounced_broadcaster :
    (∀ (s : MState) (p now : ℝ), s.last_sent_pitch = none →
       (broadcast_step s (some p) now).2 = true) ∧
    (∀ (s : MState) (p lastp now : ℝ), s.last_sent_pitch = some lastp →
       ((broadcast_step s (some p) now).2 = true ↔
         PITCH_CHANGE_CENTS < cents_diff p lastp ∧
         MIN_SEND_INTERVAL < now - s.last_sent_time)) ∧
    (∀ (s : MState) (now : ℝ), s.last_sent_pitch = some 440 →
       (broadcast_step s (some 445) now).2 = false) ∧
    (∀ (s : MState) (now : ℝ), s.last_sent_pitch = some 440 →
       MIN_SEND_INTERVAL < now - s.last_sent_time →
       (broadcast_step s (some 466) now).2 = true) := by
  refine ⟨?_, ?_, ?_, ?_⟩
  · intro s p now hs
    simp only [broadcast_step, hs]
  · intro s p lastp now hs
    simp only [broadcast_step, hs]
    by_cases h : PITCH_CHANGE_CENTS < cents_diff p lastp ∧
        MIN_SEND_INTERVAL < now - s.last_sent_time
    · rw [if_pos h]
      simp [h]
    · rw [if_neg h]
      simp [h]
  · intro s now hs
    simp only [broadcast_step, hs]
    rw [if_neg]
    intro hc
    exact absurd hc.1 (not_lt.mpr (le_of_lt cents_diff_445_440_lt))
  · intro s now hs hint
    simp only [broadcast_step, hs]
    rw [if_pos ⟨cents_diff_466_440_gt, hint⟩]

/-- Witness for C6 at the concrete state (last sent 440 Hz at time 0,
new estimate at time 1). -/
theorem C6_debounce_witness :
    (⟨some 440, 0⟩ : MState).last_sent_pitch = some 440 ∧
    MIN_SEND_INTERVAL < (1 : ℝ) - (⟨some 440, 0⟩ : MState).last_sent_time ∧
    (broadcast_step ⟨some 440, 0⟩ (some 445) 1).2 = false ∧
    (broadcast_step ⟨some 440, 0⟩ (some 466) 1).2 = true :=
  ⟨rfl,
   by show MIN_SEND_INTERVAL < (1 : ℝ) - 0; rw [MIN_SEND_INTERVAL]; norm_num,
   C6_debounced_broadcaster.2.2.1 ⟨some 440, 0⟩ 1 rfl,
   C6_debounced_broadcaster.2.2.2 ⟨some 440, 0⟩ 1 rfl
     (by show MIN_SEND_INTERVAL < (1 : ℝ) - 0; rw [MIN_SEND_INTERVAL]; norm_num)⟩

/-! ### Confidence mask of the crepe script (claim C8) -/

/-- `CONF_THRESHOLD = 0.80` from `test_crepe.py` line 13. -/
def CONF_THRESHOLD : ℚ := 0.80

/-- The masking step `freq[confidence < CONF_THRESHOLD] = np.nan` of
`test_crepe.py` lines 49-51, per frame: a frame's frequency is forced to
"no value" exactly when its confidence is strictly below the threshold. -/
def mask_frame (freq : ℝ) (conf : ℚ) : Option ℝ :=
  if conf < CONF_THRESHOLD then none else some freq

/-- The whole-array masking: elementwise `mask_frame`. -/
def mask_frames (frames : List (ℝ × ℚ)) : List (Option ℝ) :=
  frames.map fun fc => mask_frame fc.1 fc.2

/-- C8 counterexample: a frame with confidence 0.6 is masked by the code
(0.6 < CONF_THRESHOLD = 0.80), although 0.6 is not below the claimed
default threshold 0.5; the script's threshold is 0.80, not 0.5. -/
theorem C8_counterexample_threshold :
    mask_frame 440 (6 / 10) = none ∧ ¬ ((6 : ℚ) / 10 < 1 / 2) ∧
    CONF_THRESHOLD ≠ 1 / 2 := by
  refine ⟨?_, by norm_num, by rw [CONF_THRESHOLD]; norm_num⟩
  rw [mask_frame, if_pos]
  rw [CONF_THRESHOLD]
  norm_num

/-- C8 amended: a frame is marked invalid before smoothing if and only if
its confidence is strictly below the confidence threshold, whose value in
this script is 0.80. -/
theorem C8_amended_mask_iff (freq : ℝ) (conf : ℚ) :
    CONF_THRESHOLD = 4 / 5 ∧ (mask_frame freq conf = none ↔ conf < CONF_THRESHOLD) := by
  refine ⟨by rw [CONF_THRESHOLD]; norm_num, ?_⟩
  rw [mask_frame]
  by_cases h : conf < CONF_THRESHOLD
  · rw [if_pos h]
    simp [h]
  · rw [if_neg h]
    simp [h]

end Music
